import Mathlib

/-!
Verification of the block-header storage engine of a substrate light client
(`src/storage.rs`).  The development shallowly embeds the storage layer:

* hashes and block numbers are `Nat` (the reserved "unset" value
  `Default::default()` is `0`);
* the `u64` counter `non_finalized_blocks` is a `Nat` computed modulo `2 ^ 64`
  wherever the source performs `u64` arithmetic;
* the column-scoped key-value database is an in-memory association list per
  column (`META` is the single optional record, `HEADER` and `LOOKUP` are
  association lists); reads never fail, mirroring a healthy backend, so the
  purely I/O-induced error paths of the source are not represented;
* a header is a record of its declared parent hash, its height, and the value
  of `header.hash()` (the hash function is opaque in the source, so the hash
  is carried as a field);
* `import_header`'s `aux_ops` parameter is omitted: the source accepts it but
  never appends it to the transaction, and its `state` parameter (asserted to
  be `is_best`) is omitted because every modelled call satisfies the asserted
  caller contract;
* error values drop their formatted message payloads and keep the kind.
-/

namespace SLC

/-- The `u64` modulus: `non_finalized_blocks` is a `u64` in the source. -/
def U64MOD : Nat := 2 ^ 64

/-- A block header as the storage engine sees it: declared parent hash,
height, and the value of the opaque `header.hash()`. -/
structure Header where
  parent_hash : Nat
  number : Nat
  hash : Nat
deriving DecidableEq

/-- `StorageMeta`: the database metadata record (struct `StorageMeta`). -/
structure StorageMeta where
  best_hash : Nat
  best_number : Nat
  finalized_hash : Nat
  finalized_number : Nat
  genesis_hash : Nat
  non_finalized_blocks : Nat
deriving DecidableEq

/-- The metadata record synthesized for a fresh store: all fields are
`Default::default()` / `Zero::zero()`. -/
def defaultMeta : StorageMeta :=
  { best_hash := 0
    best_number := 0
    finalized_hash := 0
    finalized_number := 0
    genesis_hash := 0
    non_finalized_blocks := 0 }

/-- `BlockchainError`, message payloads dropped. -/
inductive BlockchainError where
  | Backend
  | UnknownBlock
  | DataDecode
  | NotInFinalizedChain
  | NonSequentialFinalization
deriving DecidableEq

/-- `BlockId`: a block locator, by hash or by number. -/
inductive BlockId where
  | byHash (h : Nat)
  | byNumber (n : Nat)
deriving DecidableEq

/-- One database column as an association list keyed by `Nat`. -/
abbrev AList (α : Type) := List (Nat × α)

/-- Column read (`db.get`). -/
def aget : AList α → Nat → Option α
  | [], _ => none
  | p :: m, k => if p.1 = k then some p.2 else aget m k

/-- Column delete (`tx.delete`). -/
def adel : AList α → Nat → AList α
  | [], _ => []
  | p :: m, k => if p.1 = k then adel m k else p :: adel m k

/-- Column write (`tx.put`): overwrites any previous value at the key. -/
def aput (m : AList α) (k : Nat) (v : α) : AList α :=
  (k, v) :: adel m k

/-- The store contents: the `META` record, the `HEADER` column and the
`LOOKUP` column.  The `AUX` column is disjoint from every operation the
claims concern and is not represented. -/
structure DB where
  meta : Option StorageMeta
  headers : AList Header
  lookup : AList Nat
deriving DecidableEq

/-- The empty store: no metadata record, no headers, no lookup entries. -/
def emptyDB : DB := { meta := none, headers := [], lookup := [] }

/-- `header(id)`: resolve the locator (`id()` consults the `LOOKUP` column
for a number) and fetch from the `HEADER` column. -/
def header (db : DB) (blockId : BlockId) : Option Header :=
  match blockId with
  | BlockId.byHash h => aget db.headers h
  | BlockId.byNumber n =>
    match aget db.lookup n with
    | none => none
    | some hsh => aget db.headers hsh

/-- The common tail of `import_header`: bump `non_finalized_blocks`
(`u64` increment), point `best_hash`/`best_number` at the new header, and
atomically write the metadata record together with the header record. -/
def commitImport (db : DB) (meta : StorageMeta) (hdr : Header) : DB :=
  { db with
    meta := some { meta with
      non_finalized_blocks := (meta.non_finalized_blocks + 1) % U64MOD
      best_hash := hdr.hash
      best_number := hdr.number }
    headers := aput db.headers hdr.hash hdr }

/-- The metadata record `import_header` starts from: the stored record, or
an all-default one when the store is fresh. -/
def currentMeta (db : DB) : StorageMeta :=
  match db.meta with
  | none => defaultMeta
  | some m => m

/-- `import_header`: backlog check, idempotence check, then either the
first-ever import (sets `genesis_hash`, skips validation) or the
parent/height validation against the current best header. -/
def importHeader (maxAllowed : Nat) (db : DB) (hdr : Header) :
    Except BlockchainError DB :=
  let meta := currentMeta db
  if maxAllowed ≤ meta.non_finalized_blocks then
    Except.error BlockchainError.Backend
  else if (header db (BlockId.byHash hdr.hash)).isSome then
    Except.ok db
  else if meta.best_hash = 0 then
    Except.ok (commitImport db { meta with genesis_hash := hdr.hash } hdr)
  else
    match header db (BlockId.byHash meta.best_hash) with
    | none => Except.error BlockchainError.UnknownBlock
    | some parentHeader =>
      if hdr.parent_hash ≠ parentHeader.hash ∨ hdr.number ≤ parentHeader.number then
        Except.error BlockchainError.NotInFinalizedChain
      else if hdr.number ≠ meta.best_number + 1 then
        Except.error BlockchainError.NonSequentialFinalization
      else
        Except.ok (commitImport db meta hdr)

/-- `finalize_header`: fetch the target, require the metadata record, check
finalization contiguity, then update the finalized pointers, decrement the
`u64` backlog counter, and — unless this is the first-ever finalization —
delete the header record of the target's parent. -/
def finalizeHeader (db : DB) (blockId : BlockId) : Except BlockchainError DB :=
  match header db blockId with
  | none => Except.error BlockchainError.UnknownBlock
  | some toFinalize =>
    match db.meta with
    | none => Except.error BlockchainError.Backend
    | some meta =>
      if (meta.finalized_hash ≠ 0 ∧ toFinalize.parent_hash ≠ meta.finalized_hash)
          ∨ (meta.finalized_hash = 0 ∧ toFinalize.hash ≠ meta.genesis_hash) then
        Except.error BlockchainError.NonSequentialFinalization
      else
        Except.ok
          { db with
            meta := some { meta with
              non_finalized_blocks :=
                (meta.non_finalized_blocks + (U64MOD - 1)) % U64MOD
              finalized_hash := toFinalize.hash
              finalized_number := toFinalize.number }
            headers :=
              if meta.finalized_hash = 0 then db.headers
              else adel db.headers toFinalize.parent_hash }

/-- `last_finalized`: the finalized hash from the metadata record; `Backend`
failure when the record is absent. -/
def lastFinalized (db : DB) : Except BlockchainError Nat :=
  match db.meta with
  | none => Except.error BlockchainError.Backend
  | some meta => Except.ok meta.finalized_hash

instance {ε α : Type} [DecidableEq ε] [DecidableEq α] :
    DecidableEq (Except ε α) := fun a b =>
  match a, b with
  | Except.ok x, Except.ok y =>
    if h : x = y then isTrue (by rw [h]) else isFalse (by intro hc; cases hc; exact h rfl)
  | Except.error x, Except.error y =>
    if h : x = y then isTrue (by rw [h]) else isFalse (by intro hc; cases hc; exact h rfl)
  | Except.ok _, Except.error _ => isFalse (by intro hc; cases hc)
  | Except.error _, Except.ok _ => isFalse (by intro hc; cases hc)

/-- A mutating call against the store. -/
inductive Op where
  | imp (hdr : Header)
  | fin (blockId : BlockId)
deriving DecidableEq

/-- Run one call; a failed call leaves the store unchanged (the source
returns the error before issuing any write). -/
def stepDB (maxAllowed : Nat) (db : DB) (op : Op) : DB :=
  match op with
  | Op.imp hdr =>
    match importHeader maxAllowed db hdr with
    | Except.ok db2 => db2
    | Except.error _ => db
  | Op.fin blockId =>
    match finalizeHeader db blockId with
    | Except.ok db2 => db2
    | Except.error _ => db

/-- Run a sequence of calls. -/
def runOps (maxAllowed : Nat) (db : DB) (ops : List Op) : DB :=
  ops.foldl (stepDB maxAllowed) db

/-- Hash sanity of a submitted header: its opaque hash is neither the
reserved zero value (the spec's stated assumption about the encoding
scheme's default) nor equal to its own declared parent hash (no real hash
function maps a header to its own parent pointer). -/
def soundHeader (hdr : Header) : Prop :=
  hdr.hash ≠ 0 ∧ hdr.parent_hash ≠ hdr.hash

instance : DecidablePred soundHeader := fun hdr =>
  inferInstanceAs (Decidable (hdr.hash ≠ 0 ∧ hdr.parent_hash ≠ hdr.hash))

/-- A call whose imported header (if any) satisfies `soundHeader`. -/
def soundOp : Op → Prop
  | Op.imp hdr => soundHeader hdr
  | Op.fin _ => True

instance : DecidablePred soundOp := fun op =>
  match op with
  | Op.imp hdr => inferInstanceAs (Decidable (soundHeader hdr))
  | Op.fin _ => inferInstanceAs (Decidable True)

/-- A call whose imported header (if any) has a nonzero hash — exactly the
zero-hash assumption stated in the spec's data model. -/
def nonzeroOp : Op → Prop
  | Op.imp hdr => hdr.hash ≠ 0
  | Op.fin _ => True

instance : DecidablePred nonzeroOp := fun op =>
  match op with
  | Op.imp hdr => inferInstanceAs (Decidable (hdr.hash ≠ 0))
  | Op.fin _ => inferInstanceAs (Decidable True)

/-- First header whose stored hash matches the key. -/
def findByHash : List Header → Nat → Option Header
  | [], _ => none
  | h :: l, k => if h.hash = k then some h else findByHash l k

/-- The list is a parent-linked chain with consecutive heights. -/
def linked : List Header → Prop
  | [] => True
  | [_] => True
  | a :: b :: l => (b.parent_hash = a.hash ∧ b.number = a.number + 1) ∧ linked (b :: l)

/-- All stored hashes are pairwise distinct. -/
def distinctHashes : List Header → Prop
  | [] => True
  | a :: l => (∀ h ∈ l, h.hash ≠ a.hash) ∧ distinctHashes l

/-- Last element of the chain list. -/
def lastH : List Header → Option Header
  | [] => none
  | [a] => some a
  | _ :: b :: l => lastH (b :: l)

/-- The inductive invariant tying the metadata record `m` to the contents of
the `HEADER` column `hs`, through the chain list `L` of currently stored
headers ordered by height.  Before the first finalization the chain starts
at the genesis header and `non_finalized_blocks` counts every stored header;
afterwards it starts at the most recently finalized header, which is not
counted. -/
structure ChainInv (m : StorageMeta) (L : List Header) (hs : AList Header) : Prop where
  nonempty : L ≠ []
  mapEq : ∀ k, aget hs k = findByHash L k
  links : linked L
  distinct : distinctHashes L
  sound : ∀ h ∈ L, soundHeader h
  best : ∃ b, lastH L = some b ∧ b.hash = m.best_hash ∧ b.number = m.best_number
  nfbLt : m.non_finalized_blocks < U64MOD
  phaseA : m.finalized_hash = 0 →
    (∃ g, L.head? = some g ∧ g.hash = m.genesis_hash) ∧
    m.non_finalized_blocks = L.length
  phaseB : m.finalized_hash ≠ 0 →
    (∃ f, L.head? = some f ∧ f.hash = m.finalized_hash ∧
      f.number = m.finalized_number) ∧
    m.non_finalized_blocks + 1 = L.length

/-- The store invariant: the lookup column is never written by this engine,
and either the store is empty or the metadata record matches a stored chain. -/
def Inv (db : DB) : Prop :=
  db.lookup = [] ∧
  ((db.meta = none ∧ db.headers = []) ∨
   ∃ m L, db.meta = some m ∧ ChainInv m L db.headers)

/-- Example genesis header: height 0, parent the zero hash, hash 1. -/
def exG : Header := ⟨0, 0, 1⟩

/-- Example header at height 1, child of `exG`, hash 2. -/
def exH1 : Header := ⟨1, 1, 2⟩

/-- Example header at height 2, child of `exH1`, hash 3. -/
def exH2 : Header := ⟨2, 2, 3⟩

/-- Example header at height 3, child of `exH2`, hash 4. -/
def exH3 : Header := ⟨3, 3, 4⟩

/-- A pathological header that declares itself as its own parent. -/
def selfG : Header := ⟨1, 0, 1⟩

theorem aget_adel_self (m : AList α) (k : Nat) : aget (adel m k) k = none := by
  induction m with
  | nil => rfl
  | cons p m ih =>
    by_cases h : p.1 = k
    · simpa [adel, h]
    · simpa [adel, aget, h]

theorem aget_adel_ne (m : AList α) (k k' : Nat) (h : k' ≠ k) :
    aget (adel m k) k' = aget m k' := by
  induction m with
  | nil => rfl
  | cons p m ih =>
    simp only [adel]
    by_cases hp : p.1 = k
    · rw [if_pos hp, ih]
      have hne : p.1 ≠ k' := by rw [hp]; exact fun hc => h hc.symm
      simp [aget, hne]
    · rw [if_neg hp]
      simp only [aget]
      by_cases hp' : p.1 = k'
      · rw [if_pos hp', if_pos hp']
      · rw [if_neg hp', if_neg hp', ih]

theorem aget_aput_self (m : AList α) (k : Nat) (v : α) :
    aget (aput m k v) k = some v := by
  simp [aput, aget]

theorem aget_aput_ne (m : AList α) (k k' : Nat) (v : α) (h : k' ≠ k) :
    aget (aput m k v) k' = aget m k' := by
  have : k ≠ k' := fun hc => h hc.symm
  simp [aput, aget, this, aget_adel_ne m k k' h]

theorem findByHash_mem {L : List Header} {k : Nat} {t : Header}
    (h : findByHash L k = some t) : t ∈ L ∧ t.hash = k := by
  induction L with
  | nil => cases h
  | cons a L ih =>
    by_cases ha : a.hash = k
    · simp [findByHash, ha] at h
      subst h
      exact ⟨List.mem_cons_self a L, ha⟩
    · simp [findByHash, ha] at h
      rcases ih h with ⟨hm, hh⟩
      exact ⟨List.mem_cons_of_mem a hm, hh⟩

theorem findByHash_none {L : List Header} {k : Nat} :
    findByHash L k = none ↔ ∀ h ∈ L, h.hash ≠ k := by
  induction L with
  | nil => simp [findByHash]
  | cons a L ih =>
    by_cases ha : a.hash = k
    · simp [findByHash, ha]
    · simp [findByHash, ha, ih]

theorem hash_inj {L : List Header} (hd : distinctHashes L) {p q : Header}
    (hp : p ∈ L) (hq : q ∈ L) (h : p.hash = q.hash) : p = q := by
  induction L with
  | nil => cases hp
  | cons a L ih =>
    rcases hd with ⟨hne, hd⟩
    rcases List.mem_cons.mp hp with hpa | hpl
    · rcases List.mem_cons.mp hq with hqa | hql
      · rw [hpa, hqa]
      · subst hpa
        exact absurd h.symm (hne q hql)
    · rcases List.mem_cons.mp hq with hqa | hql
      · subst hqa
        exact absurd h (hne p hpl)
      · exact ih hd hpl hql

theorem findByHash_of_distinct {L : List Header} (hd : distinctHashes L)
    {t : Header} (ht : t ∈ L) : findByHash L t.hash = some t := by
  induction L with
  | nil => cases ht
  | cons a L ih =>
    rcases hd with ⟨hne, hd⟩
    rcases List.mem_cons.mp ht with hta | htl
    · subst hta
      simp [findByHash]
    · have : a.hash ≠ t.hash := fun hc => (hne t htl) hc.symm
      have : ¬ (a.hash = t.hash) := this
      simp [findByHash, this, ih hd htl]

theorem findByHash_append_of_none {L : List Header} {k : Nat} (hnone : findByHash L k = none)
    (h : Header) : findByHash (L ++ [h]) k = if h.hash = k then some h else none := by
  induction L with
  | nil => rfl
  | cons a L ih =>
    by_cases ha : a.hash = k
    · simp [findByHash, ha] at hnone
    · simp [findByHash, ha] at hnone ⊢
      exact ih hnone

theorem findByHash_append_of_some {L : List Header} {k : Nat} {t : Header}
    (hsome : findByHash L k = some t) (h : Header) :
    findByHash (L ++ [h]) k = some t := by
  induction L with
  | nil => cases hsome
  | cons a L ih =>
    by_cases ha : a.hash = k
    · simp [findByHash, ha] at hsome ⊢
      exact hsome
    · simp [findByHash, ha] at hsome ⊢
      exact ih hsome

theorem distinct_append_one {L : List Header} (hd : distinctHashes L) {h : Header}
    (hfresh : ∀ x ∈ L, x.hash ≠ h.hash) : distinctHashes (L ++ [h]) := by
  induction L with
  | nil => exact ⟨by simp, trivial⟩
  | cons a L ih =>
    rcases hd with ⟨hne, hd⟩
    refine ⟨?_, ih hd (fun x hx => hfresh x (List.mem_cons_of_mem a hx))⟩
    intro x hx
    rcases List.mem_append.mp hx with hxl | hxr
    · exact hne x hxl
    · have : x = h := by simpa using hxr
      subst this
      exact fun hc => (hfresh a (List.mem_cons_self a L)) hc.symm

theorem lastH_cons_cons (a b : Header) (l : List Header) :
    lastH (a :: b :: l) = lastH (b :: l) := rfl

theorem lastH_mem {l : List Header} {z : Header} (h : lastH l = some z) : z ∈ l := by
  induction l with
  | nil => cases h
  | cons a l ih =>
    cases l with
    | nil =>
      simp [lastH] at h
      simp [h]
    | cons b l' =>
      rw [lastH_cons_cons] at h
      exact List.mem_cons_of_mem a (ih h)

theorem lastH_append_one (L : List Header) (h : Header) :
    lastH (L ++ [h]) = some h := by
  induction L with
  | nil => rfl
  | cons a L ih =>
    cases L with
    | nil => rfl
    | cons b L' => simpa using ih

theorem linked_tail {a : Header} {l : List Header} (h : linked (a :: l)) : linked l := by
  cases l with
  | nil => trivial
  | cons b l' => exact h.2

theorem linked_cons_number {a : Header} {l : List Header} (hl : linked (a :: l)) :
    ∀ h ∈ l, a.number < h.number := by
  induction l generalizing a with
  | nil => intro h hm; cases hm
  | cons b l' ih =>
    intro h hm
    rcases hl with ⟨⟨_, hnum⟩, hl'⟩
    rcases List.mem_cons.mp hm with hb | hl''
    · subst hb; omega
    · have := ih hl' h hl''
      omega

theorem linked_parent_mem {a : Header} {l : List Header} (hl : linked (a :: l))
    {h : Header} (hm : h ∈ l) :
    ∃ p, p ∈ a :: l ∧ h.parent_hash = p.hash ∧ h.number = p.number + 1 := by
  induction l generalizing a with
  | nil => cases hm
  | cons b l' ih =>
    rcases hl with ⟨⟨hpar, hnum⟩, hl'⟩
    rcases List.mem_cons.mp hm with hb | hl''
    · subst hb
      exact ⟨a, List.mem_cons_self a _, hpar, hnum⟩
    · rcases ih hl' hl'' with ⟨p, hp, h1, h2⟩
      exact ⟨p, List.mem_cons_of_mem a hp, h1, h2⟩

theorem linked_number_inj {l : List Header} (hl : linked l) {p q : Header}
    (hp : p ∈ l) (hq : q ∈ l) (h : p.number = q.number) : p = q := by
  induction l with
  | nil => cases hp
  | cons a l' ih =>
    rcases List.mem_cons.mp hp with hpa | hpl
    · rcases List.mem_cons.mp hq with hqa | hql
      · rw [hpa, hqa]
      · subst hpa
        have := linked_cons_number hl q hql
        omega
    · rcases List.mem_cons.mp hq with hqa | hql
      · subst hqa
        have := linked_cons_number hl p hpl
        omega
      · exact ih (linked_tail hl) hpl hql

theorem linked_last_number {l : List Header} (hl : linked l) {a z : Header}
    (hh : l.head? = some a) (hz : lastH l = some z) :
    z.number + 1 = a.number + l.length := by
  induction l generalizing a with
  | nil => cases hh
  | cons b l' ih =>
    have hb : b = a := by simpa using hh
    subst hb
    cases l' with
    | nil =>
      simp [lastH] at hz
      subst hz
      simp
    | cons c l'' =>
      rw [lastH_cons_cons] at hz
      rcases hl with ⟨⟨_, hnum⟩, hl'⟩
      have := ih hl' (show (c :: l'').head? = some c from rfl) hz
      simp only [List.length_cons] at *
      omega

theorem linked_append_one {L : List Header} (hl : linked L) {z h : Header}
    (hz : lastH L = some z) (hpar : h.parent_hash = z.hash)
    (hnum : h.number = z.number + 1) : linked (L ++ [h]) := by
  induction L with
  | nil => cases hz
  | cons a L' ih =>
    cases L' with
    | nil =>
      simp [lastH] at hz
      subst hz
      exact ⟨⟨hpar, hnum⟩, trivial⟩
    | cons b L'' =>
      rw [lastH_cons_cons] at hz
      rcases hl with ⟨hab, hl'⟩
      exact ⟨hab, ih hl' hz⟩

theorem mem_number_le_last {l : List Header} (hl : linked l) {z : Header}
    (hz : lastH l = some z) {h : Header} (hm : h ∈ l) : h.number ≤ z.number := by
  induction l with
  | nil => cases hm
  | cons a l' ih =>
    cases l' with
    | nil =>
      have ha : a = z := by simpa [lastH] using hz
      have hh : h = a := by simpa using hm
      rw [hh, ha]
    | cons b l'' =>
      rw [lastH_cons_cons] at hz
      rcases List.mem_cons.mp hm with ha | hl''
      · subst ha
        have hzm : z ∈ b :: l'' := lastH_mem hz
        have := linked_cons_number hl z hzm
        omega
      · exact ih (linked_tail hl) hz hl''

theorem linked_child_number {a : Header} {l : List Header} (hl : linked (a :: l))
    (hd : distinctHashes (a :: l)) {h : Header} (hm : h ∈ a :: l)
    (hpar : h.parent_hash = a.hash) (hself : h.parent_hash ≠ h.hash) :
    h.number = a.number + 1 := by
  rcases List.mem_cons.mp hm with ha | hl'
  · subst ha
    exact absurd hpar hself
  · rcases linked_parent_mem hl hl' with ⟨p, hp, h1, h2⟩
    have : p = a := hash_inj hd hp (List.mem_cons_self a l) (by rw [← h1, hpar])
    subst this
    exact h2

theorem head_append_one {L : List Header} (hne : L ≠ []) (h : Header) :
    (L ++ [h]).head? = L.head? := by
  cases L with
  | nil => exact absurd rfl hne
  | cons a L' => rfl

theorem header_byHash (db : DB) (k : Nat) :
    header db (BlockId.byHash k) = aget db.headers k := rfl

theorem header_byNumber_of_lookup_nil {db : DB} (hlk : db.lookup = [])
    (n : Nat) : header db (BlockId.byNumber n) = none := by
  simp [header, hlk, aget]

theorem u64_increment {x : Nat} (h : x + 1 < U64MOD) :
    (x + 1) % U64MOD = x + 1 :=
  Nat.mod_eq_of_lt h

theorem u64_decrement {x : Nat} (h1 : 1 ≤ x) (h2 : x < U64MOD) :
    (x + (U64MOD - 1)) % U64MOD = x - 1 := by
  have hM : 0 < U64MOD := by norm_num [U64MOD]
  have he : x + (U64MOD - 1) = (x - 1) + U64MOD := by omega
  rw [he, Nat.add_mod_right, Nat.mod_eq_of_lt (by omega)]

theorem importHeader_ok_inv {maxAllowed : Nat} {db : DB} {hdr : Header} {db' : DB}
    (hok : importHeader maxAllowed db hdr = Except.ok db') :
    (currentMeta db).non_finalized_blocks < maxAllowed ∧
    (((aget db.headers hdr.hash).isSome ∧ db' = db) ∨
     (aget db.headers hdr.hash = none ∧
      (((currentMeta db).best_hash = 0 ∧
        db' = commitImport db { currentMeta db with genesis_hash := hdr.hash } hdr) ∨
       (∃ ph, (currentMeta db).best_hash ≠ 0 ∧
         aget db.headers (currentMeta db).best_hash = some ph ∧
         hdr.parent_hash = ph.hash ∧ ph.number < hdr.number ∧
         hdr.number = (currentMeta db).best_number + 1 ∧
         db' = commitImport db (currentMeta db) hdr)))) := by
  simp only [importHeader, header_byHash] at hok
  split at hok
  · cases hok
  · rename_i hcap
    refine ⟨by omega, ?_⟩
    split at hok
    · rename_i hsome
      injection hok with h
      exact Or.inl ⟨hsome, h.symm⟩
    · rename_i hnotsome
      have hnone : aget db.headers hdr.hash = none := by
        cases hv : aget db.headers hdr.hash with
        | none => rfl
        | some t => rw [hv] at hnotsome; simp at hnotsome
      refine Or.inr ⟨hnone, ?_⟩
      split at hok
      · rename_i hfirst
        injection hok with h
        exact Or.inl ⟨hfirst, h.symm⟩
      · rename_i hnotfirst
        split at hok
        · cases hok
        · rename_i ph hph
          split at hok
          · cases hok
          · rename_i hchain
            split at hok
            · cases hok
            · rename_i hseq
              injection hok with h
              push_neg at hchain
              refine Or.inr ⟨ph, hnotfirst, hph, hchain.1, hchain.2, ?_, h.symm⟩
              by_contra hc
              exact hseq hc

theorem finalizeHeader_ok_inv {db : DB} {b : BlockId} {db' : DB}
    (hok : finalizeHeader db b = Except.ok db') :
    ∃ t m, header db b = some t ∧ db.meta = some m ∧
      ¬ ((m.finalized_hash ≠ 0 ∧ t.parent_hash ≠ m.finalized_hash) ∨
         (m.finalized_hash = 0 ∧ t.hash ≠ m.genesis_hash)) ∧
      db' = { db with
        meta := some { m with
          non_finalized_blocks :=
            (m.non_finalized_blocks + (U64MOD - 1)) % U64MOD
          finalized_hash := t.hash
          finalized_number := t.number }
        headers :=
          if m.finalized_hash = 0 then db.headers
          else adel db.headers t.parent_hash } := by
  simp only [finalizeHeader] at hok
  split at hok
  · cases hok
  · rename_i t ht
    split at hok
    · cases hok
    · rename_i m hm
      split at hok
      · cases hok
      · rename_i hc
        injection hok with h
        exact ⟨t, m, ht, hm, hc, h.symm⟩

theorem inv_import {maxAllowed : Nat} {db : DB} {hdr : Header} {db' : DB}
    (hmax : maxAllowed < U64MOD) (hInv : Inv db) (hsnd : soundHeader hdr)
    (hok : importHeader maxAllowed db hdr = Except.ok db') : Inv db' := by
  obtain ⟨hlk, hrest⟩ := hInv
  obtain ⟨hcap, hcases⟩ := importHeader_ok_inv hok
  rcases hcases with ⟨_, rfl⟩ | ⟨hfresh, hcases⟩
  · exact ⟨hlk, hrest⟩
  rcases hcases with ⟨hfirst, rfl⟩ | ⟨ph, hbne, hph, hpar, hlt, hseq, rfl⟩
  · -- the first-ever import
    rcases hrest with ⟨hmn, hhe⟩ | ⟨m, L, hm, hci⟩
    · have hcm : currentMeta db = defaultMeta := by simp [currentMeta, hmn]
      rw [hcm]
      refine ⟨by simp [commitImport, hlk], Or.inr ⟨_, [hdr], rfl, ?_⟩⟩
      refine ⟨by simp, ?_, ?_, ?_, ?_, ?_, ?_, ?_, ?_⟩
      · intro k
        show aget (aput db.headers hdr.hash hdr) k = _
        rw [hhe]
        by_cases hk : k = hdr.hash
        · subst hk
          rw [aget_aput_self]
          simp [findByHash]
        · rw [aget_aput_ne _ _ _ _ hk]
          have : ¬ (hdr.hash = k) := fun hc => hk hc.symm
          simp [aget, findByHash, this]
      · simp [linked]
      · simp [distinctHashes]
      · intro x hx
        have hx' : x = hdr := by simpa using hx
        rw [hx']
        exact hsnd
      · exact ⟨hdr, rfl, rfl, rfl⟩
      · show (0 + 1) % U64MOD < U64MOD
        exact Nat.mod_lt _ (by norm_num [U64MOD])
      · intro _
        refine ⟨⟨hdr, rfl, rfl⟩, ?_⟩
        show (0 + 1) % U64MOD = 1
        norm_num [U64MOD]
      · intro hfin
        exact absurd rfl hfin
    · -- impossible: a stored chain means best_hash is a real, nonzero hash
      obtain ⟨b, hlast, hbh, _⟩ := hci.best
      have hbmem : b ∈ L := lastH_mem hlast
      have hbz : b.hash ≠ 0 := (hci.sound b hbmem).1
      have hcm : currentMeta db = m := by simp [currentMeta, hm]
      rw [hcm] at hfirst
      exact absurd (by rw [hbh, hfirst]) hbz
  · -- a sequential import on a non-empty store
    rcases hrest with ⟨hmn, _⟩ | ⟨m, L, hm, hci⟩
    · have hcm : currentMeta db = defaultMeta := by simp [currentMeta, hmn]
      rw [hcm] at hbne
      exact absurd rfl hbne
    · have hcm : currentMeta db = m := by simp [currentMeta, hm]
      rw [hcm] at hph hseq hcap ⊢
      obtain ⟨b, hlast, hbh, hbn⟩ := hci.best
      have hbmem : b ∈ L := lastH_mem hlast
      have hphL : findByHash L m.best_hash = some ph := by
        rw [← hci.mapEq]; exact hph
      obtain ⟨hphm, hphh⟩ := findByHash_mem hphL
      have hphb : ph = b := hash_inj hci.distinct hphm hbmem (by rw [hphh, hbh])
      subst hphb
      have hfreshL : findByHash L hdr.hash = none := by
        rw [← hci.mapEq]; exact hfresh
      have hfreshAll : ∀ x ∈ L, x.hash ≠ hdr.hash := findByHash_none.mp hfreshL
      have hnum : hdr.number = ph.number + 1 := by rw [hseq, hbn]
      have hcnt1 : m.non_finalized_blocks + 1 < U64MOD := by omega
      refine ⟨by simp [commitImport, hlk], Or.inr ⟨_, L ++ [hdr], rfl, ?_⟩⟩
      refine ⟨by simp, ?_, ?_, ?_, ?_, ?_, ?_, ?_, ?_⟩
      · intro k
        show aget (aput db.headers hdr.hash hdr) k = _
        by_cases hk : k = hdr.hash
        · subst hk
          rw [aget_aput_self, findByHash_append_of_none hfreshL]
          simp
        · rw [aget_aput_ne _ _ _ _ hk, hci.mapEq k]
          cases hv : findByHash L k with
          | some t => rw [findByHash_append_of_some hv]
          | none =>
            rw [findByHash_append_of_none hv, if_neg (fun hc => hk hc.symm)]
      · exact linked_append_one hci.links hlast hpar hnum
      · exact distinct_append_one hci.distinct hfreshAll
      · intro x hx
        rcases List.mem_append.mp hx with h1 | h2
        · exact hci.sound x h1
        · have hx' : x = hdr := by simpa using h2
          rw [hx']
          exact hsnd
      · exact ⟨hdr, lastH_append_one L hdr, rfl, rfl⟩
      · show (m.non_finalized_blocks + 1) % U64MOD < U64MOD
        rw [u64_increment hcnt1]
        exact hcnt1
      · intro hfin0
        obtain ⟨⟨g, hg, hgh⟩, hcnt⟩ := hci.phaseA hfin0
        refine ⟨⟨g, ?_, hgh⟩, ?_⟩
        · rw [head_append_one hci.nonempty]
          exact hg
        · show (m.non_finalized_blocks + 1) % U64MOD = (L ++ [hdr]).length
          rw [u64_increment hcnt1, hcnt]
          simp
      · intro hfin
        obtain ⟨⟨f, hf, hfh, hfn⟩, hcnt⟩ := hci.phaseB hfin
        refine ⟨⟨f, ?_, hfh, hfn⟩, ?_⟩
        · rw [head_append_one hci.nonempty]
          exact hf
        · show (m.non_finalized_blocks + 1) % U64MOD + 1 = (L ++ [hdr]).length
          rw [u64_increment hcnt1]
          simp only [List.length_append, List.length_cons, List.length_nil]
          omega

theorem mem_of_header_some {db : DB} (hlk : db.lookup = []) {L : List Header}
    (hmap : ∀ k, aget db.headers k = findByHash L k) {b : BlockId} {t : Header}
    (ht : header db b = some t) : t ∈ L := by
  cases b with
  | byHash k =>
    rw [header_byHash, hmap] at ht
    exact (findByHash_mem ht).1
  | byNumber n =>
    rw [header_byNumber_of_lookup_nil hlk] at ht
    cases ht

theorem inv_fin {db : DB} {b : BlockId} {db' : DB}
    (hInv : Inv db) (hok : finalizeHeader db b = Except.ok db') : Inv db' := by
  obtain ⟨hlk, hrest⟩ := hInv
  obtain ⟨t, m, ht, hm, hc, rfl⟩ := finalizeHeader_ok_inv hok
  rcases hrest with ⟨hmn, _⟩ | ⟨m0, L, hm0, hci⟩
  · rw [hmn] at hm
    cases hm
  have hmm : m0 = m := by
    rw [hm0] at hm
    injection hm
  rw [hmm] at hci
  clear hmm hm0
  have htm : t ∈ L := mem_of_header_some hlk hci.mapEq ht
  have htz : t.hash ≠ 0 := (hci.sound t htm).1
  have htp : t.parent_hash ≠ t.hash := (hci.sound t htm).2
  rw [not_or] at hc
  obtain ⟨hc1, hc2⟩ := hc
  by_cases hfin : m.finalized_hash = 0
  · -- first-ever finalization: the target must be the genesis header
    have htg : t.hash = m.genesis_hash := by
      by_contra hne
      exact hc2 ⟨hfin, hne⟩
    obtain ⟨⟨g, hg, hgh⟩, hcnt⟩ := hci.phaseA hfin
    have hgm : g ∈ L := by
      cases L with
      | nil => cases hg
      | cons a L0 =>
        have : a = g := by simpa using hg
        rw [← this]
        exact List.mem_cons_self a L0
    have htgeq : t = g := hash_inj hci.distinct htm hgm (by rw [htg, hgh])
    have hlen1 : 1 ≤ L.length := by
      cases L with
      | nil => exact absurd rfl hci.nonempty
      | cons a L0 => simp
    have hnfb1 : 1 ≤ m.non_finalized_blocks := by omega
    have hdec : (m.non_finalized_blocks + (U64MOD - 1)) % U64MOD =
        m.non_finalized_blocks - 1 := u64_decrement hnfb1 hci.nfbLt
    rw [if_pos hfin]
    refine ⟨hlk, Or.inr ⟨_, L, rfl, ?_⟩⟩
    refine ⟨hci.nonempty, hci.mapEq, hci.links, hci.distinct, hci.sound, ?_, ?_, ?_, ?_⟩
    · obtain ⟨bb, h1, h2, h3⟩ := hci.best
      exact ⟨bb, h1, h2, h3⟩
    · show (m.non_finalized_blocks + (U64MOD - 1)) % U64MOD < U64MOD
      rw [hdec]
      have := hci.nfbLt
      omega
    · intro hzero
      exact absurd hzero htz
    · intro _
      refine ⟨⟨g, hg, ?_, ?_⟩, ?_⟩
      · show g.hash = t.hash
        rw [htgeq]
      · show g.number = t.number
        rw [htgeq]
      · show (m.non_finalized_blocks + (U64MOD - 1)) % U64MOD + 1 = L.length
        rw [hdec]
        omega
  · -- a later finalization: the target is the child of the finalized header
    have htpar : t.parent_hash = m.finalized_hash := by
      by_contra hne
      exact hc1 ⟨hfin, hne⟩
    obtain ⟨⟨f, hf, hfh, hfn⟩, hcnt⟩ := hci.phaseB hfin
    cases L with
    | nil => exact absurd rfl hci.nonempty
    | cons a L0 =>
      have haf : a = f := by simpa using hf
      rw [← haf] at hfh hfn
      clear haf hf
      have htpf : t.parent_hash = a.hash := by rw [htpar, hfh]
      have htnum : t.number = a.number + 1 :=
        linked_child_number hci.links hci.distinct htm htpf htp
      have htne : t ≠ a := by
        intro he
        rw [he] at htpf htp
        exact htp htpf
      have htm0 : t ∈ L0 := by
        rcases List.mem_cons.mp htm with he | h0
        · exact absurd he htne
        · exact h0
      cases L0 with
      | nil => cases htm0
      | cons b0 L1 =>
        have hb0num : b0.number = a.number + 1 := hci.links.1.2
        have htb0 : t = b0 :=
          linked_number_inj hci.links htm (List.mem_cons_of_mem a (List.mem_cons_self b0 L1))
            (by rw [htnum, hb0num])
        have hnfb1 : 1 ≤ m.non_finalized_blocks := by
          have := hcnt
          simp only [List.length_cons] at this
          omega
        have hdec : (m.non_finalized_blocks + (U64MOD - 1)) % U64MOD =
            m.non_finalized_blocks - 1 := u64_decrement hnfb1 hci.nfbLt
        have hdist0 := hci.distinct
        obtain ⟨hdistf, hdist1⟩ := hdist0
        rw [if_neg hfin]
        refine ⟨hlk, Or.inr ⟨_, b0 :: L1, rfl, ?_⟩⟩
        refine ⟨by simp, ?_, hci.links.2, hdist1, ?_, ?_, ?_, ?_, ?_⟩
        · intro k
          rw [htpf]
          by_cases hk : k = a.hash
          · subst hk
            rw [aget_adel_self]
            have : ∀ x ∈ b0 :: L1, x.hash ≠ a.hash := hdistf
            exact (findByHash_none.mpr this).symm
          · rw [aget_adel_ne _ _ _ hk, hci.mapEq k]
            have : ¬ (a.hash = k) := fun hc => hk hc.symm
            simp [findByHash, this]
        · intro x hx
          exact hci.sound x (List.mem_cons_of_mem a hx)
        · obtain ⟨bb, h1, h2, h3⟩ := hci.best
          rw [lastH_cons_cons] at h1
          exact ⟨bb, h1, h2, h3⟩
        · show (m.non_finalized_blocks + (U64MOD - 1)) % U64MOD < U64MOD
          rw [hdec]
          have := hci.nfbLt
          omega
        · intro hzero
          exact absurd hzero htz
        · intro _
          refine ⟨⟨b0, rfl, ?_, ?_⟩, ?_⟩
          · show b0.hash = t.hash
            rw [htb0]
          · show b0.number = t.number
            rw [htb0]
          · show (m.non_finalized_blocks + (U64MOD - 1)) % U64MOD + 1 = (b0 :: L1).length
            rw [hdec]
            simp only [List.length_cons] at hcnt ⊢
            omega

theorem inv_stepDB {maxAllowed : Nat} {db : DB} (hmax : maxAllowed < U64MOD)
    (hInv : Inv db) {op : Op} (hsnd : soundOp op) :
    Inv (stepDB maxAllowed db op) := by
  cases op with
  | imp hdr =>
    simp only [stepDB]
    cases hv : importHeader maxAllowed db hdr with
    | ok db2 => exact inv_import hmax hInv hsnd hv
    | error e => exact hInv
  | fin blockId =>
    simp only [stepDB]
    cases hv : finalizeHeader db blockId with
    | ok db2 => exact inv_fin hInv hv
    | error e => exact hInv

theorem inv_empty : Inv emptyDB := ⟨rfl, Or.inl ⟨rfl, rfl⟩⟩

theorem inv_runOps {maxAllowed : Nat} (hmax : maxAllowed < U64MOD) {db : DB}
    (hInv : Inv db) {ops : List Op} (hops : ∀ op ∈ ops, soundOp op) :
    Inv (runOps maxAllowed db ops) := by
  induction ops generalizing db with
  | nil => exact hInv
  | cons op ops ih =>
    exact ih (inv_stepDB hmax hInv (hops op (List.mem_cons_self op ops)))
      (fun o ho => hops o (List.mem_cons_of_mem op ho))

theorem genesis_stable_step {maxAllowed : Nat} {db : DB} {op : Op}
    (hsnd : nonzeroOp op) {m : StorageMeta} (hm : db.meta = some m)
    (hbz : m.best_hash ≠ 0) :
    ∃ m', (stepDB maxAllowed db op).meta = some m' ∧
      m'.genesis_hash = m.genesis_hash ∧ m'.best_hash ≠ 0 := by
  cases op with
  | imp hdr =>
    simp only [stepDB]
    cases hv : importHeader maxAllowed db hdr with
    | error e => exact ⟨m, hm, rfl, hbz⟩
    | ok db2 =>
      obtain ⟨_, hcases⟩ := importHeader_ok_inv hv
      have hcm : currentMeta db = m := by simp [currentMeta, hm]
      rcases hcases with ⟨_, rfl⟩ | ⟨_, hcases⟩
      · exact ⟨m, hm, rfl, hbz⟩
      rcases hcases with ⟨hfirst, rfl⟩ | ⟨ph, _, _, _, _, _, rfl⟩
      · rw [hcm] at hfirst
        exact absurd hfirst hbz
      · rw [hcm]
        exact ⟨_, rfl, rfl, hsnd⟩
  | fin blockId =>
    simp only [stepDB]
    cases hv : finalizeHeader db blockId with
    | error e => exact ⟨m, hm, rfl, hbz⟩
    | ok db2 =>
      obtain ⟨t, m0, _, hm0, _, rfl⟩ := finalizeHeader_ok_inv hv
      have hmm : m0 = m := by
        rw [hm0] at hm
        injection hm
      rw [hmm]
      exact ⟨_, rfl, rfl, hbz⟩

theorem genesis_stable_runOps {maxAllowed : Nat} {db : DB} {ops : List Op}
    (hops : ∀ op ∈ ops, nonzeroOp op) {m : StorageMeta} (hm : db.meta = some m)
    (hbz : m.best_hash ≠ 0) :
    ∃ m', (runOps maxAllowed db ops).meta = some m' ∧
      m'.genesis_hash = m.genesis_hash ∧ m'.best_hash ≠ 0 := by
  induction ops generalizing db m with
  | nil => exact ⟨m, hm, rfl, hbz⟩
  | cons op ops ih =>
    obtain ⟨m1, hm1, hg1, hb1⟩ :=
      @genesis_stable_step maxAllowed db op
        (hops op (List.mem_cons_self op ops)) m hm hbz
    obtain ⟨m', hm', hg', hb'⟩ :=
      ih (fun o ho => hops o (List.mem_cons_of_mem op ho)) hm1 hb1
    exact ⟨m', hm', by rw [hg', hg1], hb'⟩

/-- C2: for every `finalize_header` call whose target header is present and
whose metadata record exists: with nothing finalized yet the call fails with
`NonSequentialFinalization` unless the target's hash equals `genesis_hash`;
with something finalized it fails with `NonSequentialFinalization` unless the
target's declared parent hash equals the current `finalized_hash`; on success
the finalized pointers are set to the target and `non_finalized_blocks` is
decremented by one (as a `u64`; an ordinary subtraction when the counter is
positive). -/
theorem finalize_contiguity_and_updates {db : DB} {b : BlockId} {t : Header}
    {m : StorageMeta} (ht : header db b = some t) (hm : db.meta = some m)
    (hlt64 : m.non_finalized_blocks < U64MOD) :
    (m.finalized_hash = 0 → t.hash ≠ m.genesis_hash →
      finalizeHeader db b = Except.error BlockchainError.NonSequentialFinalization) ∧
    (m.finalized_hash ≠ 0 → t.parent_hash ≠ m.finalized_hash →
      finalizeHeader db b = Except.error BlockchainError.NonSequentialFinalization) ∧
    ((m.finalized_hash = 0 ∧ t.hash = m.genesis_hash) ∨
     (m.finalized_hash ≠ 0 ∧ t.parent_hash = m.finalized_hash) →
      ∃ db', finalizeHeader db b = Except.ok db' ∧
        db'.meta = some { m with
          finalized_hash := t.hash
          finalized_number := t.number
          non_finalized_blocks :=
            (m.non_finalized_blocks + (U64MOD - 1)) % U64MOD } ∧
        (1 ≤ m.non_finalized_blocks →
          db'.meta = some { m with
            finalized_hash := t.hash
            finalized_number := t.number
            non_finalized_blocks := m.non_finalized_blocks - 1 })) := by
  have hbase : finalizeHeader db b =
      (if (m.finalized_hash ≠ 0 ∧ t.parent_hash ≠ m.finalized_hash)
          ∨ (m.finalized_hash = 0 ∧ t.hash ≠ m.genesis_hash) then
        Except.error BlockchainError.NonSequentialFinalization
      else
        Except.ok
          { db with
            meta := some { m with
              non_finalized_blocks :=
                (m.non_finalized_blocks + (U64MOD - 1)) % U64MOD
              finalized_hash := t.hash
              finalized_number := t.number }
            headers :=
              if m.finalized_hash = 0 then db.headers
              else adel db.headers t.parent_hash }) := by
    simp only [finalizeHeader, ht, hm]
  refine ⟨?_, ?_, ?_⟩
  · intro h0 hneq
    rw [hbase, if_pos (Or.inr ⟨h0, hneq⟩)]
  · intro hf hneq
    rw [hbase, if_pos (Or.inl ⟨hf, hneq⟩)]
  · intro hpass
    have hneg : ¬ ((m.finalized_hash ≠ 0 ∧ t.parent_hash ≠ m.finalized_hash)
        ∨ (m.finalized_hash = 0 ∧ t.hash ≠ m.genesis_hash)) := by
      rcases hpass with ⟨h0, heq⟩ | ⟨hf, heq⟩
      · rintro (⟨hf', _⟩ | ⟨_, hne⟩)
        · exact hf' h0
        · exact hne heq
      · rintro (⟨_, hne⟩ | ⟨h0', _⟩)
        · exact hne heq
        · exact hf h0'
    rw [hbase, if_neg hneg]
    refine ⟨_, rfl, rfl, ?_⟩
    intro h1
    rw [u64_decrement h1 hlt64]

/-- C2 witness: finalizing the genesis header of a freshly imported
two-header chain succeeds and decrements the counter from 2 to 1. -/
theorem finalize_contiguity_and_updates_witness :
    finalizeHeader (runOps 10 emptyDB [Op.imp exG, Op.imp exH1]) (BlockId.byHash 1) =
      Except.ok (runOps 10 emptyDB [Op.imp exG, Op.imp exH1, Op.fin (BlockId.byHash 1)]) ∧
    (runOps 10 emptyDB [Op.imp exG, Op.imp exH1, Op.fin (BlockId.byHash 1)]).meta =
      some ⟨2, 1, 1, 0, 1, 1⟩ := by
  obtain ⟨db', hok, hmeta, hdec⟩ :=
    (@finalize_contiguity_and_updates (runOps 10 emptyDB [Op.imp exG, Op.imp exH1])
      (BlockId.byHash 1) exG ⟨2, 1, 0, 0, 1, 2⟩ (by decide) (by decide)
      (by norm_num [U64MOD])).2.2 (Or.inl ⟨rfl, by decide⟩)
  have hval : db' = runOps 10 emptyDB [Op.imp exG, Op.imp exH1, Op.fin (BlockId.byHash 1)] := by
    have hc : finalizeHeader (runOps 10 emptyDB [Op.imp exG, Op.imp exH1]) (BlockId.byHash 1) =
        Except.ok (runOps 10 emptyDB [Op.imp exG, Op.imp exH1, Op.fin (BlockId.byHash 1)]) := by
      decide
    rw [hok] at hc
    injection hc
  rw [← hval]
  refine ⟨hok, ?_⟩
  rw [hdec (by decide)]
  decide

/-- C3: importing while `non_finalized_blocks` has reached the
construction-time bound fails with a `Backend` error; concretely with bound 2,
after two imports the third fails, finalizing the genesis permits exactly one
more import, and the next one fails again. -/
theorem backlog_bound :
    (∀ (maxAllowed : Nat) (db : DB) (m : StorageMeta) (hdr : Header),
      db.meta = some m → maxAllowed ≤ m.non_finalized_blocks →
      importHeader maxAllowed db hdr = Except.error BlockchainError.Backend) ∧
    (importHeader 2 (runOps 2 emptyDB [Op.imp exG, Op.imp exH1]) exH2 =
       Except.error BlockchainError.Backend ∧
     finalizeHeader (runOps 2 emptyDB [Op.imp exG, Op.imp exH1]) (BlockId.byHash 1) =
       Except.ok (runOps 2 emptyDB
         [Op.imp exG, Op.imp exH1, Op.fin (BlockId.byHash 1)]) ∧
     importHeader 2 (runOps 2 emptyDB
         [Op.imp exG, Op.imp exH1, Op.fin (BlockId.byHash 1)]) exH2 =
       Except.ok (runOps 2 emptyDB
         [Op.imp exG, Op.imp exH1, Op.fin (BlockId.byHash 1), Op.imp exH2]) ∧
     importHeader 2 (runOps 2 emptyDB
         [Op.imp exG, Op.imp exH1, Op.fin (BlockId.byHash 1), Op.imp exH2]) exH3 =
       Except.error BlockchainError.Backend) := by
  constructor
  · intro maxAllowed db m hdr hm hcap
    have hcm : currentMeta db = m := by simp [currentMeta, hm]
    simp only [importHeader, hcm]
    rw [if_pos hcap]
  · exact ⟨by decide, by decide, by decide, by decide⟩

/-- C3 witness: with bound 1, the store holding only the genesis header
rejects any further import with a `Backend` error. -/
theorem backlog_bound_witness :
    importHeader 1 (runOps 1 emptyDB [Op.imp exG]) exH1 =
      Except.error BlockchainError.Backend :=
  backlog_bound.1 1 (runOps 1 emptyDB [Op.imp exG]) ⟨1, 0, 0, 0, 1, 1⟩ exH1
    (by decide) (by decide)

/-- C8 counterexample: after one successful import (nothing finalized),
`last_finalized()` does not fail with `Backend` — it returns `Ok` carrying
the zero (unset) finalized hash, because the metadata record exists. -/
theorem last_finalized_after_first_import_cex :
    importHeader 10 emptyDB exG = Except.ok (runOps 10 emptyDB [Op.imp exG]) ∧
    lastFinalized (runOps 10 emptyDB [Op.imp exG]) = Except.ok 0 ∧
    lastFinalized (runOps 10 emptyDB [Op.imp exG]) ≠
      Except.error BlockchainError.Backend := by
  refine ⟨by decide, by decide, by decide⟩

/-- C8 amended: `last_finalized()` fails with `Backend` exactly when the
metadata record is absent (the truly empty store); once any import has
created the record it returns `Ok` with the stored `finalized_hash` — which
is the zero/unset value right after the first import. -/
theorem last_finalized_behavior :
    lastFinalized emptyDB = Except.error BlockchainError.Backend ∧
    (∀ (db : DB) (m : StorageMeta), db.meta = some m →
      lastFinalized db = Except.ok m.finalized_hash) ∧
    lastFinalized (runOps 10 emptyDB [Op.imp exG]) = Except.ok 0 := by
  refine ⟨rfl, ?_, by decide⟩
  intro db m hm
  simp [lastFinalized, hm]

/-- C8 amended witness: the general `Ok` clause applied to the concrete
one-import store. -/
theorem last_finalized_behavior_witness :
    lastFinalized (runOps 10 emptyDB [Op.imp exG]) =
      Except.ok (StorageMeta.finalized_hash ⟨1, 0, 0, 0, 1, 1⟩) :=
  last_finalized_behavior.2.1 (runOps 10 emptyDB [Op.imp exG]) ⟨1, 0, 0, 0, 1, 1⟩
    (by decide)

/-- C9 counterexample: in the documented scenario (genesis imported, its
child imported, genesis finalized), importing a second header of height 1 is
rejected with `NotInFinalizedChain`, not with `NonSequentialFinalization` as
the claim states. -/
theorem duplicate_height_error_kind_cex :
    importHeader 10
        (runOps 10 emptyDB [Op.imp exG, Op.imp exH1, Op.fin (BlockId.byHash 1)])
        ⟨1, 1, 5⟩ =
      Except.error BlockchainError.NotInFinalizedChain ∧
    importHeader 10
        (runOps 10 emptyDB [Op.imp exG, Op.imp exH1, Op.fin (BlockId.byHash 1)])
        ⟨1, 1, 5⟩ ≠
      Except.error BlockchainError.NonSequentialFinalization := by
  refine ⟨by decide, by decide⟩

/-- C1 counterexample: on a non-empty store whose best header is present,
re-submitting the already-stored genesis header — whose declared parent hash
differs from the best header's hash and whose height is not above
`best_number` — succeeds as a no-op instead of failing with
`NotInFinalizedChain`: the idempotence check fires before the validation the
claim describes. -/
theorem import_validation_on_nonempty_cex :
    (runOps 10 emptyDB [Op.imp exG, Op.imp exH1]).meta ≠ none ∧
    ((runOps 10 emptyDB [Op.imp exG, Op.imp exH1]).meta.getD
        defaultMeta).best_hash ≠ 0 ∧
    aget (runOps 10 emptyDB [Op.imp exG, Op.imp exH1]).headers
        ((runOps 10 emptyDB [Op.imp exG, Op.imp exH1]).meta.getD
          defaultMeta).best_hash ≠ none ∧
    exG.parent_hash ≠
      ((runOps 10 emptyDB [Op.imp exG, Op.imp exH1]).meta.getD
        defaultMeta).best_hash ∧
    exG.number ≤
      ((runOps 10 emptyDB [Op.imp exG, Op.imp exH1]).meta.getD
        defaultMeta).best_number ∧
    importHeader 10 (runOps 10 emptyDB [Op.imp exG, Op.imp exH1]) exG =
      Except.ok (runOps 10 emptyDB [Op.imp exG, Op.imp exH1]) := by
  refine ⟨by decide, by decide, by decide, by decide, by decide, by decide⟩

/-- C1 amended: on a non-empty store (`best_hash` set) whose current best
header is present, provided the backlog counter is below the bound and the
submitted header is not already stored: if the new header's declared parent
hash differs from the best header's hash, or its height is not strictly
greater than `best_number`, the call fails with `NotInFinalizedChain`;
otherwise, if its height is not exactly `best_number + 1`, it fails with
`NonSequentialFinalization`; otherwise it succeeds and the new header
becomes `best_hash`/`best_number`. -/
theorem import_validation_on_nonempty
    {maxAllowed : Nat} {db : DB} {m : StorageMeta} {bh hdr : Header}
    (hm : db.meta = some m) (hne : m.best_hash ≠ 0)
    (hbh : aget db.headers m.best_hash = some bh)
    (hbhash : bh.hash = m.best_hash) (hbnum : bh.number = m.best_number)
    (hcap : m.non_finalized_blocks < maxAllowed)
    (hnew : aget db.headers hdr.hash = none) :
    ((hdr.parent_hash ≠ m.best_hash ∨ hdr.number ≤ m.best_number) →
      importHeader maxAllowed db hdr =
        Except.error BlockchainError.NotInFinalizedChain) ∧
    (hdr.parent_hash = m.best_hash → m.best_number < hdr.number →
      hdr.number ≠ m.best_number + 1 →
      importHeader maxAllowed db hdr =
        Except.error BlockchainError.NonSequentialFinalization) ∧
    (hdr.parent_hash = m.best_hash → hdr.number = m.best_number + 1 →
      importHeader maxAllowed db hdr = Except.ok (commitImport db m hdr) ∧
      (commitImport db m hdr).meta = some { m with
        non_finalized_blocks := (m.non_finalized_blocks + 1) % U64MOD
        best_hash := hdr.hash
        best_number := hdr.number }) := by
  have hcm : currentMeta db = m := by simp [currentMeta, hm]
  have h1 : ¬ maxAllowed ≤ m.non_finalized_blocks := not_le.mpr hcap
  have hkey : importHeader maxAllowed db hdr =
      (if hdr.parent_hash ≠ m.best_hash ∨ hdr.number ≤ m.best_number then
        Except.error BlockchainError.NotInFinalizedChain
      else if hdr.number ≠ m.best_number + 1 then
        Except.error BlockchainError.NonSequentialFinalization
      else Except.ok (commitImport db m hdr)) := by
    simp only [importHeader, hcm, header_byHash, hnew, Option.isSome_none,
      hbh, hbhash, hbnum]
    rw [if_neg h1, if_neg (by simp), if_neg hne]
  refine ⟨?_, ?_, ?_⟩
  · intro hcond
    rw [hkey, if_pos hcond]
  · intro hp hlt hne2
    have hc1 : ¬ (hdr.parent_hash ≠ m.best_hash ∨ hdr.number ≤ m.best_number) := by
      rintro (hc | hc)
      · exact hc hp
      · omega
    rw [hkey, if_neg hc1, if_pos hne2]
  · intro hp hseq
    have hc1 : ¬ (hdr.parent_hash ≠ m.best_hash ∨ hdr.number ≤ m.best_number) := by
      rintro (hc | hc)
      · exact hc hp
      · omega
    have hc2 : ¬ (hdr.number ≠ m.best_number + 1) := fun hc => hc hseq
    rw [hkey, if_neg hc1, if_neg hc2]
    exact ⟨rfl, rfl⟩

/-- C1 amended witness: importing the proper child of the genesis header on
the one-header store succeeds and makes it the best header. -/
theorem import_validation_on_nonempty_witness :
    importHeader 10 (runOps 10 emptyDB [Op.imp exG]) exH1 =
      Except.ok (commitImport (runOps 10 emptyDB [Op.imp exG])
        ⟨1, 0, 0, 0, 1, 1⟩ exH1) ∧
    (commitImport (runOps 10 emptyDB [Op.imp exG]) ⟨1, 0, 0, 0, 1, 1⟩ exH1).meta =
      some ⟨2, 1, 0, 0, 1, 2⟩ := by
  obtain ⟨hok, hmeta⟩ :=
    (@import_validation_on_nonempty 10 (runOps 10 emptyDB [Op.imp exG])
      ⟨1, 0, 0, 0, 1, 1⟩ exG exH1 (by decide) (by decide) (by decide) (by decide)
      (by decide) (by decide) (by decide)).2.2 (by decide) (by decide)
  exact ⟨hok, by rw [hmeta]; decide⟩

/-- C6 counterexample: with bound 1, importing the genesis header succeeds
but immediately re-importing the very same header fails with a `Backend`
error — the backlog check fires before the idempotence check — so a
double import does not always return success twice. -/
theorem idempotent_import_backlog_cex :
    importHeader 1 emptyDB exG = Except.ok (runOps 1 emptyDB [Op.imp exG]) ∧
    importHeader 1 (runOps 1 emptyDB [Op.imp exG]) exG =
      Except.error BlockchainError.Backend := by
  refine ⟨by decide, by decide⟩

/-- C6 amended: whenever an `import_header(H)` call succeeds and the
resulting backlog counter is still below the bound, an immediately repeated
`import_header(H)` returns success and leaves the store — the metadata
record and the stored headers — entirely unchanged. -/
theorem idempotent_import_below_bound {maxAllowed : Nat} {db db' : DB}
    {hdr : Header} (h1 : importHeader maxAllowed db hdr = Except.ok db')
    (hcap : (currentMeta db').non_finalized_blocks < maxAllowed) :
    importHeader maxAllowed db' hdr = Except.ok db' := by
  obtain ⟨_, hcases⟩ := importHeader_ok_inv h1
  have hstored : (aget db'.headers hdr.hash).isSome = true := by
    rcases hcases with ⟨hs, rfl⟩ | ⟨_, hcases⟩
    · exact hs
    rcases hcases with ⟨_, rfl⟩ | ⟨ph, _, _, _, _, _, rfl⟩
    · show (aget (aput db.headers hdr.hash hdr) hdr.hash).isSome = true
      rw [aget_aput_self]
      rfl
    · show (aget (aput db.headers hdr.hash hdr) hdr.hash).isSome = true
      rw [aget_aput_self]
      rfl
  simp only [importHeader, header_byHash]
  rw [if_neg (not_le.mpr hcap), if_pos hstored]

/-- C6 amended witness: re-importing the genesis header right after
its import (bound 10) is a successful no-op. -/
theorem idempotent_import_below_bound_witness :
    importHeader 10 (runOps 10 emptyDB [Op.imp exG]) exG =
      Except.ok (runOps 10 emptyDB [Op.imp exG]) :=
  @idempotent_import_below_bound 10 emptyDB (runOps 10 emptyDB [Op.imp exG]) exG
    (by decide) (by decide)

/-- C9 amended: in that scenario a duplicate-height header is rejected with
`NotInFinalizedChain` — whether it forks off the finalized genesis or
declares the current best as parent — because the parent/height check
(`NotInFinalizedChain`) fires before the sequential-height check. -/
theorem duplicate_height_rejection :
    importHeader 10
        (runOps 10 emptyDB [Op.imp exG, Op.imp exH1, Op.fin (BlockId.byHash 1)])
        ⟨1, 1, 5⟩ =
      Except.error BlockchainError.NotInFinalizedChain ∧
    importHeader 10
        (runOps 10 emptyDB [Op.imp exG, Op.imp exH1, Op.fin (BlockId.byHash 1)])
        ⟨2, 1, 5⟩ =
      Except.error BlockchainError.NotInFinalizedChain := by
  refine ⟨by decide, by decide⟩

/-- C4 counterexample: after importing a single (sound) genesis header,
`genesis_hash` is set but `best_number - finalized_number = 0` while
`non_finalized_blocks = 1`, so the claimed identity fails before the first
finalization. -/
theorem count_invariant_genesis_cex :
    soundHeader exG ∧
    (runOps 10 emptyDB [Op.imp exG]).meta ≠ none ∧
    ((runOps 10 emptyDB [Op.imp exG]).meta.getD defaultMeta).genesis_hash ≠ 0 ∧
    ((runOps 10 emptyDB [Op.imp exG]).meta.getD defaultMeta).best_number -
        ((runOps 10 emptyDB [Op.imp exG]).meta.getD defaultMeta).finalized_number ≠
      ((runOps 10 emptyDB [Op.imp exG]).meta.getD defaultMeta).non_finalized_blocks := by
  refine ⟨by decide, by decide, by decide, by decide⟩

/-- C4 amended: in every state reachable from the empty store by
`import_header`/`finalize_header` calls with a `u64`-valued bound and
hash-sane headers, once a block has been finalized (`finalized_hash` set)
the metadata record satisfies
`best_number - finalized_number == non_finalized_blocks` (stated without
truncated subtraction as `best_number = finalized_number + counter`); before
the first finalization the counter instead exceeds that difference by one,
because the genesis header itself is still counted. -/
theorem count_invariant_after_finalization {maxAllowed : Nat} {ops : List Op}
    {m : StorageMeta} (hmax : maxAllowed < U64MOD)
    (hops : ∀ op ∈ ops, soundOp op)
    (hm : (runOps maxAllowed emptyDB ops).meta = some m)
    (hfin : m.finalized_hash ≠ 0) :
    m.best_number = m.finalized_number + m.non_finalized_blocks := by
  obtain ⟨hlk, hrest⟩ := inv_runOps hmax inv_empty hops
  rcases hrest with ⟨hmn, _⟩ | ⟨m0, L, hm0, hci⟩
  · rw [hmn] at hm
    cases hm
  · have hmm : m0 = m := by
      rw [hm0] at hm
      injection hm
    rw [hmm] at hci
    obtain ⟨⟨f, hf, hfh, hfn⟩, hcnt⟩ := hci.phaseB hfin
    obtain ⟨bb, hlast, hbh, hbn⟩ := hci.best
    have := linked_last_number hci.links hf hlast
    omega

/-- C4 amended witness: the three-call scenario genesis, child, finalize
genesis reaches a state with `best_number = 1`, `finalized_number = 0` and
counter 1. -/
theorem count_invariant_after_finalization_witness :
    StorageMeta.best_number ⟨2, 1, 1, 0, 1, 1⟩ =
      StorageMeta.finalized_number ⟨2, 1, 1, 0, 1, 1⟩ +
        StorageMeta.non_finalized_blocks ⟨2, 1, 1, 0, 1, 1⟩ :=
  @count_invariant_after_finalization 10
    [Op.imp exG, Op.imp exH1, Op.fin (BlockId.byHash 1)] ⟨2, 1, 1, 0, 1, 1⟩
    (by norm_num [U64MOD]) (by decide) (by decide) (by decide)

/-- C10 counterexample: a header declaring itself as its own parent can
be imported as genesis and then finalized twice — the second call passes the
contiguity check from `non_finalized_blocks = 0`, and the `u64` decrement
wraps the counter around to `2 ^ 64 - 1`. -/
theorem counter_underflow_cex :
    (runOps 10 emptyDB [Op.imp selfG, Op.fin (BlockId.byHash 1)]).meta =
      some ⟨1, 0, 1, 0, 1, 0⟩ ∧
    finalizeHeader (runOps 10 emptyDB [Op.imp selfG, Op.fin (BlockId.byHash 1)])
        (BlockId.byHash 1) =
      Except.ok (runOps 10 emptyDB
        [Op.imp selfG, Op.fin (BlockId.byHash 1), Op.fin (BlockId.byHash 1)]) ∧
    ((runOps 10 emptyDB
        [Op.imp selfG, Op.fin (BlockId.byHash 1), Op.fin (BlockId.byHash 1)]).meta.getD
      defaultMeta).non_finalized_blocks = U64MOD - 1 := by
  refine ⟨by decide, by decide, by decide⟩

/-- C10 amended: in every state reachable from the empty store with a
`u64`-valued bound and hash-sane headers (nonzero hash, never its own
parent), whenever `finalize_header` passes its contiguity check — the target
is present and matches the genesis/parent condition — the counter satisfies
`non_finalized_blocks ≥ 1`, so the `u64` decrement cannot wrap. -/
theorem no_counter_underflow {maxAllowed : Nat} {ops : List Op} {b : BlockId}
    {t : Header} {m : StorageMeta} (hmax : maxAllowed < U64MOD)
    (hops : ∀ op ∈ ops, soundOp op)
    (hm : (runOps maxAllowed emptyDB ops).meta = some m)
    (ht : header (runOps maxAllowed emptyDB ops) b = some t)
    (hpass : ¬ ((m.finalized_hash ≠ 0 ∧ t.parent_hash ≠ m.finalized_hash) ∨
                (m.finalized_hash = 0 ∧ t.hash ≠ m.genesis_hash))) :
    1 ≤ m.non_finalized_blocks := by
  obtain ⟨hlk, hrest⟩ := inv_runOps hmax inv_empty hops
  rcases hrest with ⟨hmn, _⟩ | ⟨m0, L, hm0, hci⟩
  · rw [hmn] at hm
    cases hm
  have hmm : m0 = m := by
    rw [hm0] at hm
    injection hm
  rw [hmm] at hci
  have htm : t ∈ L := mem_of_header_some hlk hci.mapEq ht
  by_cases hfin : m.finalized_hash = 0
  · obtain ⟨_, hcnt⟩ := hci.phaseA hfin
    have hpos : 0 < L.length := List.length_pos.mpr hci.nonempty
    omega
  · rw [not_or] at hpass
    have htpar : t.parent_hash = m.finalized_hash := by
      by_contra hne
      exact hpass.1 ⟨hfin, hne⟩
    obtain ⟨⟨f, hf, hfh, hfn⟩, hcnt⟩ := hci.phaseB hfin
    cases L with
    | nil => exact absurd rfl hci.nonempty
    | cons a L0 =>
      have haf : a = f := by simpa using hf
      rw [← haf] at hfh
      have htpf : t.parent_hash = a.hash := by rw [htpar, hfh]
      have htp : t.parent_hash ≠ t.hash := (hci.sound t htm).2
      have htne : t ≠ a := by
        intro he
        rw [he] at htpf htp
        exact htp htpf
      have htm0 : t ∈ L0 := by
        rcases List.mem_cons.mp htm with he | h0
        · exact absurd he htne
        · exact h0
      have hpos : 0 < L0.length := List.length_pos.mpr (by
        intro hc
        rw [hc] at htm0
        cases htm0)
      simp only [List.length_cons] at hcnt
      omega

/-- C10 amended witness: finalizing the genesis header of the one-import
store passes the contiguity check with counter 1. -/
theorem no_counter_underflow_witness :
    1 ≤ StorageMeta.non_finalized_blocks ⟨1, 0, 0, 0, 1, 1⟩ :=
  @no_counter_underflow 10 [Op.imp exG] (BlockId.byHash 1) exG ⟨1, 0, 0, 0, 1, 1⟩
    (by norm_num [U64MOD]) (by decide) (by decide) (by decide) (by decide)

/-- C7: an import performed while `best_hash` is the zero/unset value (the
first-ever import) sets `genesis_hash` to the imported header's hash, and no
subsequent `import_header` or `finalize_header` call changes it, given the
spec's stated assumption that real hashes are never the reserved zero value. -/
theorem genesis_set_once {maxAllowed : Nat} {db db' : DB} {hdr : Header}
    {ops : List Op} (hz : hdr.hash ≠ 0)
    (hfirst : (currentMeta db).best_hash = 0)
    (hfresh : aget db.headers hdr.hash = none)
    (hok : importHeader maxAllowed db hdr = Except.ok db')
    (hops : ∀ op ∈ ops, nonzeroOp op) :
    (runOps maxAllowed db' ops).meta ≠ none ∧
    ((runOps maxAllowed db' ops).meta.getD defaultMeta).genesis_hash = hdr.hash := by
  obtain ⟨_, hcases⟩ := importHeader_ok_inv hok
  rcases hcases with ⟨hs, rfl⟩ | ⟨_, hcases⟩
  · rw [hfresh] at hs
    simp at hs
  rcases hcases with ⟨_, rfl⟩ | ⟨ph, hbne, _, _, _, _, rfl⟩
  · have hm1 : (commitImport db { currentMeta db with genesis_hash := hdr.hash } hdr).meta =
        some { currentMeta db with
          genesis_hash := hdr.hash
          non_finalized_blocks := ((currentMeta db).non_finalized_blocks + 1) % U64MOD
          best_hash := hdr.hash
          best_number := hdr.number } := rfl
    obtain ⟨m', hm', hg', _⟩ := genesis_stable_runOps hops hm1 hz
    constructor
    · rw [hm']
      exact fun hc => by cases hc
    · rw [hm']
      simpa using hg'
  · exact absurd hfirst hbne

/-- C5 counterexample: finalizing a self-parental genesis header a second
time is a successful non-first finalization, yet afterwards the
just-finalized header itself is no longer retrievable via `header()` — the
pruning step deleted the target's parent, which is the target itself. -/
theorem finalize_pruning_selfparent_cex :
    ((runOps 10 emptyDB [Op.imp selfG, Op.fin (BlockId.byHash 1)]).meta.getD
        defaultMeta).finalized_hash ≠ 0 ∧
    header (runOps 10 emptyDB [Op.imp selfG, Op.fin (BlockId.byHash 1)])
        (BlockId.byHash selfG.hash) = some selfG ∧
    finalizeHeader (runOps 10 emptyDB [Op.imp selfG, Op.fin (BlockId.byHash 1)])
        (BlockId.byHash 1) =
      Except.ok (runOps 10 emptyDB
        [Op.imp selfG, Op.fin (BlockId.byHash 1), Op.fin (BlockId.byHash 1)]) ∧
    header (runOps 10 emptyDB
        [Op.imp selfG, Op.fin (BlockId.byHash 1), Op.fin (BlockId.byHash 1)])
        (BlockId.byHash selfG.hash) = none := by
  refine ⟨by decide, by decide, by decide, by decide⟩

/-- C5 amended: in every state reachable from the empty store with a
`u64`-valued bound and hash-sane headers, a successful non-first
`finalize_header` leaves the header record of the target's parent
unretrievable via `header()` while the just-finalized header and every
stored header of greater height remain retrievable; a successful first-ever
finalization deletes no header. -/
theorem finalize_pruning {maxAllowed : Nat} {ops : List Op} {b : BlockId}
    {t : Header} {m : StorageMeta} {db' : DB} (hmax : maxAllowed < U64MOD)
    (hops : ∀ op ∈ ops, soundOp op)
    (hm : (runOps maxAllowed emptyDB ops).meta = some m)
    (ht : header (runOps maxAllowed emptyDB ops) b = some t)
    (hok : finalizeHeader (runOps maxAllowed emptyDB ops) b = Except.ok db') :
    (m.finalized_hash ≠ 0 →
      header db' (BlockId.byHash t.parent_hash) = none ∧
      header db' (BlockId.byHash t.hash) = some t ∧
      (∀ k h, aget (runOps maxAllowed emptyDB ops).headers k = some h →
        t.number < h.number → aget db'.headers k = some h)) ∧
    (m.finalized_hash = 0 →
      db'.headers = (runOps maxAllowed emptyDB ops).headers) := by
  obtain ⟨hlk, hrest⟩ := inv_runOps hmax inv_empty hops
  obtain ⟨t0, m0, ht0, hm0, hc, rfl⟩ := finalizeHeader_ok_inv hok
  have hts : t0 = t := by
    rw [ht0] at ht
    injection ht
  subst hts
  have hms : m0 = m := by
    rw [hm0] at hm
    injection hm
  subst hms
  rcases hrest with ⟨hmn, _⟩ | ⟨m1, L, hm1, hci⟩
  · rw [hmn] at hm0
    cases hm0
  have hmm : m1 = m0 := by
    rw [hm1] at hm0
    injection hm0
  rw [hmm] at hci
  have htm : t0 ∈ L := mem_of_header_some hlk hci.mapEq ht0
  have htp : t0.parent_hash ≠ t0.hash := (hci.sound t0 htm).2
  constructor
  · intro hfin
    have hheq : (if m0.finalized_hash = 0 then
          (runOps maxAllowed emptyDB ops).headers
        else adel (runOps maxAllowed emptyDB ops).headers t0.parent_hash) =
        adel (runOps maxAllowed emptyDB ops).headers t0.parent_hash :=
      if_neg hfin
    rw [not_or] at hc
    have htpar : t0.parent_hash = m0.finalized_hash := by
      by_contra hne
      exact hc.1 ⟨hfin, hne⟩
    refine ⟨?_, ?_, ?_⟩
    · show aget (if m0.finalized_hash = 0 then
          (runOps maxAllowed emptyDB ops).headers
        else adel (runOps maxAllowed emptyDB ops).headers t0.parent_hash)
          t0.parent_hash = none
      rw [hheq]
      exact aget_adel_self _ _
    · show aget (if m0.finalized_hash = 0 then
          (runOps maxAllowed emptyDB ops).headers
        else adel (runOps maxAllowed emptyDB ops).headers t0.parent_hash)
          t0.hash = some t0
      rw [hheq, aget_adel_ne _ _ _ (Ne.symm htp), hci.mapEq]
      exact findByHash_of_distinct hci.distinct htm
    · intro k h hk hlt
      show aget (if m0.finalized_hash = 0 then
          (runOps maxAllowed emptyDB ops).headers
        else adel (runOps maxAllowed emptyDB ops).headers t0.parent_hash)
          k = some h
      rw [hheq]
      by_cases hkp : k = t0.parent_hash
      · obtain ⟨⟨f, hf, hfh, hfn⟩, _⟩ := hci.phaseB hfin
        cases L with
        | nil => exact absurd rfl hci.nonempty
        | cons a L0 =>
          have haf : a = f := by simpa using hf
          rw [← haf] at hfh
          have htpf : t0.parent_hash = a.hash := by rw [htpar, hfh]
          have hkeq : k = a.hash := by rw [hkp, htpf]
          rw [hci.mapEq, hkeq] at hk
          have hha : h = a := by
            have : findByHash (a :: L0) a.hash = some a := by
              simp [findByHash]
            rw [this] at hk
            injection hk with hk
            exact hk.symm
          have htnum : t0.number = a.number + 1 :=
            linked_child_number hci.links hci.distinct htm htpf htp
          rw [hha] at hlt
          omega
      · rw [aget_adel_ne _ _ _ hkp]
        exact hk
  · intro hfin0
    show (if m0.finalized_hash = 0 then
        (runOps maxAllowed emptyDB ops).headers
      else adel (runOps maxAllowed emptyDB ops).headers t0.parent_hash) =
      (runOps maxAllowed emptyDB ops).headers
    exact if_pos hfin0

/-- C5 amended witness: after the chain genesis, H1, H2 with genesis
finalized, finalizing H1 removes the genesis header, keeps H1, and keeps the
higher header H2. -/
theorem finalize_pruning_witness :
    header (runOps 10 emptyDB [Op.imp exG, Op.imp exH1, Op.imp exH2,
        Op.fin (BlockId.byHash 1), Op.fin (BlockId.byHash 2)])
      (BlockId.byHash exH1.parent_hash) = none ∧
    header (runOps 10 emptyDB [Op.imp exG, Op.imp exH1, Op.imp exH2,
        Op.fin (BlockId.byHash 1), Op.fin (BlockId.byHash 2)])
      (BlockId.byHash exH1.hash) = some exH1 ∧
    aget (runOps 10 emptyDB [Op.imp exG, Op.imp exH1, Op.imp exH2,
        Op.fin (BlockId.byHash 1), Op.fin (BlockId.byHash 2)]).headers 3 =
      some exH2 := by
  have H := @finalize_pruning 10
    [Op.imp exG, Op.imp exH1, Op.imp exH2, Op.fin (BlockId.byHash 1)]
    (BlockId.byHash 2) exH1 ⟨3, 2, 1, 0, 1, 2⟩
    (runOps 10 emptyDB [Op.imp exG, Op.imp exH1, Op.imp exH2,
      Op.fin (BlockId.byHash 1), Op.fin (BlockId.byHash 2)])
    (by norm_num [U64MOD]) (by decide) (by decide) (by decide) (by decide)
  have H1 := H.1 (by decide)
  exact ⟨H1.1, H1.2.1, H1.2.2 3 exH2 (by decide) (by decide)⟩

/-- C7 witness: importing the genesis header on the empty store and then its
child leaves `genesis_hash` equal to the genesis header's hash. -/
theorem genesis_set_once_witness :
    (runOps 10 (runOps 10 emptyDB [Op.imp exG]) [Op.imp exH1]).meta ≠ none ∧
    ((runOps 10 (runOps 10 emptyDB [Op.imp exG]) [Op.imp exH1]).meta.getD
        defaultMeta).genesis_hash = exG.hash := by
  have hok : importHeader 10 emptyDB exG =
      Except.ok (runOps 10 emptyDB [Op.imp exG]) := by decide
  exact @genesis_set_once 10 emptyDB (runOps 10 emptyDB [Op.imp exG]) exG
    [Op.imp exH1] (by decide) (by decide) (by decide) hok (by decide)

end SLC
